import Mathlib

/-!
# Verification of mergebot (src/mergebot.py)

Shallow embedding of the mergebot program: the status reconciliation
performed by `statuses_get`, the commit-title construction, and the
polling loop's decision logic, together with theorems settling the
specification claims.
-/

namespace Mergebot

/-- A raw commit status as returned by the statuses API: the fields of the
JSON object that `statuses_get` reads (`context`, `state`, `updated_at`,
`target_url`, `description`). -/
structure Status where
  context : String
  state : String
  updated_at : String
  target_url : Option String
  description : Option String
deriving DecidableEq, Repr

/-- A status after `statuses_get` adds the `required` flag
(line 105: `{**s, 'required': s['context'] in required_statuses}`). -/
structure AStatus where
  context : String
  state : String
  updated_at : String
  target_url : Option String
  description : Option String
  required : Bool
deriving DecidableEq, Repr

/-- Line 105: annotate one status with `required = context in required_statuses`. -/
def addRequired (required_statuses : List String) (s : Status) : AStatus :=
  { context := s.context
    state := s.state
    updated_at := s.updated_at
    target_url := s.target_url
    description := s.description
    required := required_statuses.contains s.context }

/-- Embedding of `"+".join l`. -/
def joinPlus : List String → String
  | [] => ""
  | [a] => a
  | a :: b :: rest => a ++ "+" ++ joinPlus (b :: rest)

/-- Line 175, the fallback title:
`f'Merge {branch} [ok:{"+".join((approvers + ["mergebot"])[:2])}]'`. -/
def defaultTitle (branch : String) (approvers : List String) : String :=
  "Merge " ++ branch ++ " [ok:" ++ joinPlus ((approvers ++ ["mergebot"]).take 2) ++ "]"

/-- Line 175: `commit_title = args.commit_title or f'Merge ...'`.
`args.commit_title` is `None` when the flag is absent; Python's `or`
falls through on any falsy value, so an empty string also falls through. -/
def commit_title (override : Option String) (branch : String) (approvers : List String) :
    String :=
  match override with
  | some t => if t = "" then defaultTitle branch approvers else t
  | none => defaultTitle branch approvers

/-- Line 108's sort key `(s['context'], s['updated_at'])`, compared the way
Python compares tuples of strings: lexicographically. Python's `sorted` is a
stable sort for this total preorder, as is `List.insertionSort`. -/
def keyLe (a b : AStatus) : Prop :=
  a.context < b.context ∨ (a.context = b.context ∧ a.updated_at ≤ b.updated_at)

instance : DecidableRel keyLe := fun a b =>
  inferInstanceAs (Decidable (a.context < b.context ∨
    (a.context = b.context ∧ a.updated_at ≤ b.updated_at)))

instance : IsTotal AStatus keyLe where
  total a b := by
    rcases lt_trichotomy a.context b.context with h | h | h
    · exact Or.inl (Or.inl h)
    · rcases le_total a.updated_at b.updated_at with h' | h'
      · exact Or.inl (Or.inr ⟨h, h'⟩)
      · exact Or.inr (Or.inr ⟨h.symm, h'⟩)
    · exact Or.inr (Or.inl h)

instance : IsTrans AStatus keyLe where
  trans a b c hab hbc := by
    rcases hab with hab | ⟨hab, hab'⟩
    · rcases hbc with hbc | ⟨hbc, _⟩
      · exact Or.inl (hab.trans hbc)
      · exact Or.inl (hbc ▸ hab)
    · rcases hbc with hbc | ⟨hbc, hbc'⟩
      · exact Or.inl (hab ▸ hbc)
      · exact Or.inr ⟨hab.trans hbc, hab'.trans hbc'⟩

/-- Line 115's sort key `s['state']` (the second, state-keyed sort). -/
def stateLe (a b : AStatus) : Prop := a.state ≤ b.state

instance : DecidableRel stateLe := fun a b =>
  inferInstanceAs (Decidable (a.state ≤ b.state))

instance : IsTotal AStatus stateLe := ⟨fun a b => le_total a.state b.state⟩

instance : IsTrans AStatus stateLe := ⟨fun _ _ _ h h' => le_trans h h'⟩

/-- Lines 107-110: from the list sorted by `(context, updated_at)`, keep the
last element of each run of equal contexts. This is exactly
`[list(v)[-1] for k, v in itertools.groupby(sorted_statuses, key context)]`:
`groupby` groups consecutive elements with equal key and `list(v)[-1]` keeps
the last member of each group. -/
def lastOfRuns : List AStatus → List AStatus
  | [] => []
  | [s] => [s]
  | s :: t :: rest =>
    if s.context = t.context then lastOfRuns (t :: rest)
    else s :: lastOfRuns (t :: rest)

/-- Lines 105-110 of `statuses_get`: annotate every raw status with the
required flag, then keep the latest status for each context. -/
def statuses_dedup (required_statuses : List String) (raw : List Status) : List AStatus :=
  lastOfRuns (List.insertionSort keyLe (raw.map (addRequired required_statuses)))

/-- Reference function written from the spec's words: "select the single
report with the latest `updatedAt` (ties broken by ... last-seen-in-input)".
`bestFor c l` returns, among the entries of `l` whose context is `c`, the one
with the largest `updated_at`, later entries winning ties; `none` when no
entry has context `c`. -/
def bestFor (c : String) : List AStatus → Option AStatus
  | [] => none
  | s :: rest =>
    if s.context = c then
      match bestFor c rest with
      | none => some s
      | some b => if s.updated_at ≤ b.updated_at then some b else some s
    else bestFor c rest

/-- Lines 112-118: `itertools.groupby` over the list sorted by state, giving
the association list of `(state, group)` pairs underlying the returned dict.
`groupby` yields each maximal run of consecutive equal-state elements. -/
def runsByState : List AStatus → List (String × List AStatus)
  | [] => []
  | s :: rest =>
    (s.state, s :: rest.takeWhile (fun t => t.state == s.state)) ::
      runsByState (rest.dropWhile (fun t => t.state == s.state))
termination_by l => l.length
decreasing_by
  simp only [List.length_cons]
  exact Nat.lt_succ_of_le (List.dropWhile_sublist _).length_le

/-- `d.get(k, [])` on the dict built from the association pairs (groupby on a
sorted list yields pairwise-distinct keys, so first match is the entry). -/
def dictGet (d : List (String × List AStatus)) (k : String) : List AStatus :=
  match d.find? (fun p => p.1 == k) with
  | some p => p.2
  | none => []

/-- Lines 101-118, `statuses_get`: required-flag annotation, per-context
deduplication, then the state-keyed dict of the surviving statuses. -/
def statuses_get (required_statuses : List String) (raw : List Status) :
    List (String × List AStatus) :=
  runsByState (List.insertionSort stateLe (statuses_dedup required_statuses raw))

/-- Line 169: `statuses.get('error', []) + statuses.get('failure', [])`, the
checks reported as "not successful". -/
def failingChecks (d : List (String × List AStatus)) : List AStatus :=
  dictGet d "error" ++ dictGet d "failure"

/-- Line 170: `statuses.get('pending', [])`. -/
def pendingChecks (d : List (String × List AStatus)) : List AStatus :=
  dictGet d "pending"

/-- One review as read by line 150: `r['user']['login']` and `r['state']`. -/
structure Review where
  user_login : String
  state : String
deriving DecidableEq, Repr

/-- Line 150: `[r['user']['login'] for r in pull_get('/reviews') if r['state'] == 'APPROVED']`. -/
def approversOf (reviews : List Review) : List String :=
  (reviews.filter (fun r => r.state == "APPROVED")).map (fun r => r.user_login)

/-- The pull-request fields read by the loop (lines 143-149). The JSON
`mergeable` field is `None`, `True` or `False`, hence `Option Bool`. -/
structure PRData where
  author : String
  branch : String
  sha : String
  state : String
  mergeable : Option Bool
  mergeable_state : String
deriving DecidableEq, Repr

/-- Python truthiness of the `mergeable` field: only `True` is truthy. -/
def truthy : Option Bool → Bool
  | some true => true
  | _ => false

/-- The error classes a call to `request` can raise (authentication
failure, missing resource, throttling, network-level failure). The code
installs no handler for any of them. -/
inductive RemoteError
  | authError
  | notFound
  | rateLimit
  | transport
deriving DecidableEq, Repr

/-- What the remote delivers to one iteration of the `while` loop: each
request either yields its payload or raises. `statusesFetch` bundles the
branch-protection contexts with the raw statuses (both fetched inside
`statuses_get`, lines 102-103); `mergeFetch` is the `merged` field of the
merge response, consulted only if the merge is attempted. -/
structure CycleInput where
  prFetch : Except RemoteError PRData
  reviewsFetch : Except RemoteError (List Review)
  statusesFetch : Except RemoteError (List String × List Status)
  mergeFetch : Except RemoteError (Option Bool)
deriving Repr

/-- The outcome of one iteration of the `while` loop body (lines 142-190). -/
inductive StepResult
  | crashed (e : RemoteError)
  | abortAuthor
  | abortClosed
  | merged
  | mergeFailed
  | mergeCrashed (e : RemoteError)
  | continueWait
deriving DecidableEq, Repr

/-- Lines 142-190: one iteration of the `while True` loop. Requests are
consumed in source order (PR, reviews, statuses, merge); an exception in
any of them propagates out of the loop (`crashed`/`mergeCrashed`). The
author check (line 160) runs before the closed check (line 164); the
statuses are fetched and reported but never consulted by the merge
condition (line 177); the `dirty` branch (line 172) only logs. The merge
succeeds when `r.get('merged', False) is True` (line 181). -/
def step (user : String) (any_author : Bool) (inp : CycleInput) : StepResult :=
  match inp.prFetch with
  | .error e => .crashed e
  | .ok pr =>
    match inp.reviewsFetch with
    | .error e => .crashed e
    | .ok _reviews =>
      if pr.author ≠ user ∧ ¬any_author then .abortAuthor
      else if pr.state = "closed" then .abortClosed
      else
        match inp.statusesFetch with
        | .error e => .crashed e
        | .ok _ =>
          if truthy pr.mergeable ∧
              (pr.mergeable_state = "has_hooks" ∨ pr.mergeable_state = "clean") then
            match inp.mergeFetch with
            | .error e => .mergeCrashed e
            | .ok merged_field =>
              if merged_field = some true then .merged else .mergeFailed
          else .continueWait

/-- Terminal outcomes of a whole run, plus `exhausted` for when the
supplied trace of cycle inputs runs out while the loop is still polling. -/
inductive Outcome
  | done
  | abortedAuthor
  | abortedClosed
  | abortedMergeFailed
  | crashed (e : RemoteError)
  | mergeCrashed (e : RemoteError)
  | exhausted
deriving DecidableEq, Repr

/-- The `while True` loop (lines 141-190) driven by a trace of cycle
inputs: each iteration consumes one `CycleInput`; `break` and uncaught
exceptions terminate the run, `time.sleep(300)` leads to the next
iteration. -/
def runLoop (user : String) (any_author : Bool) : List CycleInput → Outcome
  | [] => .exhausted
  | inp :: rest =>
    match step user any_author inp with
    | .crashed e => .crashed e
    | .abortAuthor => .abortedAuthor
    | .abortClosed => .abortedClosed
    | .merged => .done
    | .mergeFailed => .abortedMergeFailed
    | .mergeCrashed e => .mergeCrashed e
    | .continueWait => runLoop user any_author rest

/-- Whether the loop body reached the `merge(...)` call of line 180. -/
def callsMerge : StepResult → Bool
  | .merged => true
  | .mergeFailed => true
  | .mergeCrashed _ => true
  | _ => false

/-- Number of times a run invokes the merge endpoint. -/
def mergeCalls (user : String) (any_author : Bool) : List CycleInput → Nat
  | [] => 0
  | inp :: rest =>
    match step user any_author inp with
    | .continueWait => mergeCalls user any_author rest
    | r => if callsMerge r then 1 else 0

theorem keyLe_trans {a b c : AStatus} (h1 : keyLe a b) (h2 : keyLe b c) : keyLe a c :=
  IsTrans.trans a b c h1 h2

theorem orderedInsert_eq_cons (x : AStatus) : ∀ m : List AStatus,
    (∀ z ∈ m, keyLe x z) → List.orderedInsert keyLe x m = x :: m
  | [], _ => rfl
  | z :: zs, h => by
    rw [List.orderedInsert, if_pos (h z (List.mem_cons_self _ _))]

theorem filter_orderedInsert_neg (p : AStatus → Bool) (x : AStatus) (hx : p x = false) :
    ∀ m : List AStatus, (List.orderedInsert keyLe x m).filter p = m.filter p
  | [] => by simp [List.orderedInsert, hx]
  | y :: ys => by
    rw [List.orderedInsert]
    by_cases hxy : keyLe x y
    · rw [if_pos hxy, List.filter_cons_of_neg (by simp [hx])]
    · rw [if_neg hxy]
      by_cases hpy : p y = true
      · rw [List.filter_cons_of_pos hpy, List.filter_cons_of_pos hpy,
          filter_orderedInsert_neg p x hx ys]
      · rw [List.filter_cons_of_neg (by simpa using hpy),
          List.filter_cons_of_neg (by simpa using hpy),
          filter_orderedInsert_neg p x hx ys]

theorem filter_orderedInsert_pos (p : AStatus → Bool) (x : AStatus) (hx : p x = true) :
    ∀ m : List AStatus, m.Sorted keyLe →
      (List.orderedInsert keyLe x m).filter p = List.orderedInsert keyLe x (m.filter p)
  | [], _ => by simp [List.orderedInsert, hx]
  | y :: ys, hs => by
    rw [List.orderedInsert]
    by_cases hxy : keyLe x y
    · rw [if_pos hxy]
      by_cases hpy : p y = true
      · rw [List.filter_cons_of_pos hx, List.filter_cons_of_pos hpy,
          List.orderedInsert, if_pos hxy]
      · rw [List.filter_cons_of_pos hx, List.filter_cons_of_neg (by simpa using hpy)]
        rw [orderedInsert_eq_cons x _ ?_]
        intro z hz
        exact keyLe_trans hxy (List.rel_of_sorted_cons hs z (List.mem_of_mem_filter hz))
    · rw [if_neg hxy]
      by_cases hpy : p y = true
      · rw [List.filter_cons_of_pos hpy, List.filter_cons_of_pos hpy,
          List.orderedInsert, if_neg hxy,
          filter_orderedInsert_pos p x hx ys hs.of_cons]
      · rw [List.filter_cons_of_neg (by simpa using hpy),
          List.filter_cons_of_neg (by simpa using hpy),
          filter_orderedInsert_pos p x hx ys hs.of_cons]

theorem filter_insertionSort (p : AStatus → Bool) : ∀ l : List AStatus,
    (List.insertionSort keyLe l).filter p = List.insertionSort keyLe (l.filter p)
  | [] => rfl
  | x :: t => by
    rw [List.insertionSort]
    by_cases hx : p x = true
    · rw [filter_orderedInsert_pos p x hx _ (List.sorted_insertionSort keyLe t),
        filter_insertionSort p t, List.filter_cons_of_pos hx, List.insertionSort]
    · rw [filter_orderedInsert_neg p x (by simpa using hx) _,
        filter_insertionSort p t, List.filter_cons_of_neg (by simpa using hx)]

theorem lastOfRuns_sublist : ∀ l : List AStatus, List.Sublist (lastOfRuns l) l
  | [] => by simp [lastOfRuns]
  | [s] => by simp [lastOfRuns]
  | s :: t :: rest => by
    rw [lastOfRuns]
    split
    · exact (lastOfRuns_sublist (t :: rest)).cons _
    · exact (lastOfRuns_sublist (t :: rest)).cons₂ _

theorem lastOfRuns_filter (c : String) : ∀ m : List AStatus, m.Sorted keyLe →
    (lastOfRuns m).filter (fun s => s.context == c) =
      lastOfRuns (m.filter (fun s => s.context == c))
  | [], _ => rfl
  | [s], _ => by
    by_cases hp : s.context = c
    · simp [lastOfRuns, hp]
    · simp [lastOfRuns, hp]
  | s :: t :: rest, hs => by
    rw [lastOfRuns]
    by_cases hctx : s.context = t.context
    · rw [if_pos hctx]
      by_cases hp : s.context = c
      · have hpt : t.context = c := by rw [← hctx]; exact hp
        have h2 : (s :: t :: rest).filter (fun s => s.context == c) =
            s :: t :: rest.filter (fun s => s.context == c) := by
          rw [List.filter_cons_of_pos (by simpa using hp),
            List.filter_cons_of_pos (by simpa using hpt)]
        have h3 : lastOfRuns (s :: t :: rest.filter (fun s => s.context == c)) =
            lastOfRuns (t :: rest.filter (fun s => s.context == c)) := by
          rw [lastOfRuns, if_pos hctx]
        have h4 : (t :: rest).filter (fun s => s.context == c) =
            t :: rest.filter (fun s => s.context == c) :=
          List.filter_cons_of_pos (by simpa using hpt)
        rw [h2, h3, lastOfRuns_filter c (t :: rest) hs.of_cons, h4]
      · rw [List.filter_cons_of_neg (by simpa using hp),
          lastOfRuns_filter c (t :: rest) hs.of_cons]
    · rw [if_neg hctx]
      by_cases hp : s.context = c
      · have hsc : s.context < t.context := by
          have hst : keyLe s t := List.rel_of_sorted_cons hs t (List.mem_cons_self _ _)
          rcases hst with h | ⟨h, _⟩
          · exact h
          · exact absurd h hctx
        have hgt : ∀ y ∈ t :: rest, c < y.context := by
          intro y hy
          rcases List.mem_cons.1 hy with rfl | hy'
          · exact hp ▸ hsc
          · have h2 : keyLe t y := List.rel_of_sorted_cons hs.of_cons y hy'
            have h3 : t.context ≤ y.context := by
              rcases h2 with h | ⟨h, _⟩
              · exact le_of_lt h
              · exact le_of_eq h
            exact lt_of_lt_of_le (hp ▸ hsc) h3
        have hnil : (t :: rest).filter (fun s => s.context == c) = [] := by
          rw [List.filter_eq_nil_iff]
          intro y hy
          simpa using (hgt y hy).ne'
        have hXnil : (lastOfRuns (t :: rest)).filter (fun s => s.context == c) = [] := by
          rw [List.filter_eq_nil_iff]
          intro y hy
          simpa using (hgt y ((lastOfRuns_sublist _).subset hy)).ne'
        rw [List.filter_cons_of_pos (by simpa using hp), hXnil,
          List.filter_cons_of_pos (by simpa using hp), hnil]
        simp [lastOfRuns]
      · have h2 : (s :: t :: rest).filter (fun s => s.context == c) =
            (t :: rest).filter (fun s => s.context == c) :=
          List.filter_cons_of_neg (by simpa using hp)
        rw [List.filter_cons_of_neg (by simpa using hp),
          lastOfRuns_filter c (t :: rest) hs.of_cons, h2]

theorem lastOfRuns_uniform (c : String) : ∀ m : List AStatus,
    (∀ y ∈ m, y.context = c) → lastOfRuns m = m.getLast?.toList
  | [], _ => rfl
  | [s], _ => rfl
  | s :: t :: rest, h => by
    have hst : s.context = t.context :=
      (h s (List.mem_cons_self _ _)).trans
        (h t (List.mem_cons_of_mem _ (List.mem_cons_self _ _))).symm
    rw [lastOfRuns, if_pos hst,
      lastOfRuns_uniform c (t :: rest) (fun y hy => h y (List.mem_cons_of_mem _ hy)),
      List.getLast?_cons_cons]

theorem getLast?_orderedInsert : ∀ (m : List AStatus), m.Sorted keyLe → ∀ x : AStatus,
    (List.orderedInsert keyLe x m).getLast? =
      (match m.getLast? with
      | none => some x
      | some y => some (if keyLe x y then y else x))
  | [], _, x => rfl
  | y :: ys, hs, x => by
    rw [List.orderedInsert]
    by_cases hxy : keyLe x y
    · rw [if_pos hxy, List.getLast?_cons_cons]
      obtain ⟨z, hz⟩ : ∃ z, (y :: ys).getLast? = some z := by
        cases ys with
        | nil => exact ⟨y, rfl⟩
        | cons w ws =>
          rw [List.getLast?_cons_cons]
          exact ⟨(w :: ws).getLast (by simp), List.getLast?_eq_getLast _ _⟩
      have hzmem : z ∈ y :: ys := List.mem_of_mem_getLast? (by simpa using hz)
      have hxz : keyLe x z := by
        rcases List.mem_cons.1 hzmem with rfl | hz'
        · exact hxy
        · exact keyLe_trans hxy (List.rel_of_sorted_cons hs z hz')
      rw [hz]
      dsimp only
      rw [if_pos hxz]
    · rw [if_neg hxy]
      cases ys with
      | nil =>
        simp only [List.orderedInsert]
        rw [List.getLast?_cons_cons]
        simp [if_neg hxy]
      | cons w ws =>
        have hrec := getLast?_orderedInsert (w :: ws) hs.of_cons x
        have hlen : (List.orderedInsert keyLe x (w :: ws)).length = ws.length + 2 := by
          rw [List.orderedInsert_length]
          simp
        cases hshape : List.orderedInsert keyLe x (w :: ws) with
        | nil =>
          rw [hshape] at hlen
          simp at hlen
        | cons a l =>
          rw [hshape] at hrec
          rw [List.getLast?_cons_cons, hrec, List.getLast?_cons_cons]

theorem bestFor_some : ∀ {c : String} {t : List AStatus} {b : AStatus},
    bestFor c t = some b → b ∈ t ∧ b.context = c
  | c, [], b => by simp [bestFor]
  | c, s :: rest, b => by
    intro h
    rw [bestFor] at h
    by_cases hs : s.context = c
    · rw [if_pos hs] at h
      cases hbr : bestFor c rest with
      | none =>
        rw [hbr] at h
        cases h
        exact ⟨List.mem_cons_self _ _, hs⟩
      | some b' =>
        rw [hbr] at h
        dsimp only at h
        by_cases hle : s.updated_at ≤ b'.updated_at
        · rw [if_pos hle] at h
          cases h
          have hb' := bestFor_some hbr
          exact ⟨List.mem_cons_of_mem _ hb'.1, hb'.2⟩
        · rw [if_neg hle] at h
          cases h
          exact ⟨List.mem_cons_self _ _, hs⟩
    · rw [if_neg hs] at h
      have hb := bestFor_some h
      exact ⟨List.mem_cons_of_mem _ hb.1, hb.2⟩

theorem getLast?_insertionSort_bestFor (c : String) : ∀ u : List AStatus,
    (∀ y ∈ u, y.context = c) →
    (List.insertionSort keyLe u).getLast? = bestFor c u
  | [], _ => rfl
  | s :: t, h => by
    have hsc : s.context = c := h s (List.mem_cons_self _ _)
    rw [List.insertionSort,
      getLast?_orderedInsert _ (List.sorted_insertionSort keyLe t) s,
      getLast?_insertionSort_bestFor c t (fun y hy => h y (List.mem_cons_of_mem _ hy)),
      bestFor, if_pos hsc]
    cases hbr : bestFor c t with
    | none => rfl
    | some b =>
      have hbc : b.context = c := (bestFor_some hbr).2
      dsimp only
      by_cases hle : s.updated_at ≤ b.updated_at
      · rw [if_pos hle,
          if_pos (show keyLe s b from Or.inr ⟨hsc.trans hbc.symm, hle⟩)]
      · have hnk : ¬keyLe s b := by
          intro hk
          rcases hk with hk | ⟨_, hk⟩
          · rw [hsc, hbc] at hk
            exact lt_irrefl _ hk
          · exact hle hk
        rw [if_neg hle, if_neg hnk]

theorem bestFor_filter (c : String) : ∀ l : List AStatus,
    bestFor c (l.filter (fun s => s.context == c)) = bestFor c l
  | [] => rfl
  | s :: t => by
    by_cases hs : s.context = c
    · rw [List.filter_cons_of_pos (by simpa using hs)]
      rw [bestFor, bestFor, if_pos hs, if_pos hs, bestFor_filter c t]
    · rw [List.filter_cons_of_neg (by simpa using hs), bestFor, if_neg hs,
        bestFor_filter c t]

theorem bestFor_eq_none (c : String) : ∀ l : List AStatus,
    bestFor c l = none ↔ ∀ y ∈ l, y.context ≠ c
  | [] => by simp [bestFor]
  | s :: t => by
    rw [bestFor]
    by_cases hs : s.context = c
    · rw [if_pos hs]
      constructor
      · intro h
        cases hbr : bestFor c t with
        | none =>
          rw [hbr] at h
          cases h
        | some b =>
          rw [hbr] at h
          dsimp only at h
          by_cases hle : s.updated_at ≤ b.updated_at
          · rw [if_pos hle] at h
            cases h
          · rw [if_neg hle] at h
            cases h
      · intro h
        exact absurd hs (h s (List.mem_cons_self _ _))
    · rw [if_neg hs, bestFor_eq_none c t]
      constructor
      · intro h y hy
        rcases List.mem_cons.1 hy with rfl | hy'
        · exact hs
        · exact h y hy'
      · intro h y hy
        exact h y (List.mem_cons_of_mem _ hy)

theorem statuses_dedup_filter (required_statuses : List String) (raw : List Status)
    (c : String) :
    (statuses_dedup required_statuses raw).filter (fun s => s.context == c) =
      (bestFor c (raw.map (addRequired required_statuses))).toList := by
  unfold statuses_dedup
  rw [lastOfRuns_filter c _ (List.sorted_insertionSort keyLe _), filter_insertionSort]
  have huni : ∀ y ∈ (raw.map (addRequired required_statuses)).filter
      (fun s => s.context == c), y.context = c := by
    intro y hy
    simpa using List.of_mem_filter hy
  rw [lastOfRuns_uniform c _ (fun y hy => huni y ((List.mem_insertionSort keyLe).1 hy)),
    getLast?_insertionSort_bestFor c _ huni, bestFor_filter]

theorem mem_statuses_dedup {required_statuses : List String} {raw : List Status}
    {s : AStatus} (h : s ∈ statuses_dedup required_statuses raw) :
    s ∈ raw.map (addRequired required_statuses) := by
  have h' : s ∈ List.insertionSort keyLe (raw.map (addRequired required_statuses)) :=
    (lastOfRuns_sublist _).subset h
  exact (List.mem_insertionSort keyLe).1 h'

theorem mem_dictGet_runsByState : ∀ (m : List AStatus) (k : String) (x : AStatus),
    x ∈ dictGet (runsByState m) k → x ∈ m ∧ x.state = k
  | [], k, x => by simp [runsByState, dictGet, List.find?]
  | s :: rest, k, x => by
    intro h
    rw [runsByState] at h
    unfold dictGet at h
    by_cases hk : s.state = k
    · rw [List.find?_cons_of_pos _ (by simpa using hk)] at h
      rcases List.mem_cons.1 h with rfl | h'
      · exact ⟨List.mem_cons_self _ _, hk⟩
      · have hx : x ∈ rest := (List.takeWhile_sublist _).subset h'
        have hxs : x.state = s.state := by
          simpa using List.mem_takeWhile_imp h'
        exact ⟨List.mem_cons_of_mem _ hx, hxs.trans hk⟩
    · rw [List.find?_cons_of_neg _ (by simpa using hk)] at h
      have ih := mem_dictGet_runsByState
        (rest.dropWhile (fun t => t.state == s.state)) k x h
      exact ⟨List.mem_cons_of_mem _ ((List.dropWhile_sublist _).subset ih.1), ih.2⟩
termination_by m => m.length
decreasing_by
  simp only [List.length_cons]
  exact Nat.lt_succ_of_le (List.dropWhile_sublist _).length_le

theorem mem_takeWhile_state {c : String} : ∀ {l : List AStatus},
    l.Sorted stateLe → (∀ y ∈ l, c ≤ y.state) →
    ∀ x ∈ l, x.state = c → x ∈ l.takeWhile (fun t => t.state == c)
  | [], _, _ => by simp
  | a :: t, hs, hlb => by
    intro x hx hxc
    by_cases ha : a.state = c
    · rw [List.takeWhile_cons_of_pos (by simpa using ha)]
      rcases List.mem_cons.1 hx with rfl | hx'
      · exact List.mem_cons_self _ _
      · refine List.mem_cons_of_mem _ ?_
        exact mem_takeWhile_state hs.of_cons
          (fun y hy => hlb y (List.mem_cons_of_mem _ hy)) x hx' hxc
    · exfalso
      have hca : c < a.state := lt_of_le_of_ne (hlb a (List.mem_cons_self _ _)) (Ne.symm ha)
      rcases List.mem_cons.1 hx with rfl | hx'
      · exact ha hxc
      · have : a.state ≤ x.state := List.rel_of_sorted_cons hs x hx'
        exact absurd (hxc ▸ this) (not_le_of_lt hca)

theorem mem_dictGet_of_mem : ∀ (m : List AStatus), m.Sorted stateLe →
    ∀ (k : String) (x : AStatus), x ∈ m → x.state = k → x ∈ dictGet (runsByState m) k
  | [], _ => by simp
  | s :: rest, hs => by
    intro k x hx hxk
    rw [runsByState]
    unfold dictGet
    by_cases hk : s.state = k
    · rw [List.find?_cons_of_pos _ (by simpa using hk)]
      rcases List.mem_cons.1 hx with rfl | hx'
      · exact List.mem_cons_self _ _
      · refine List.mem_cons_of_mem _ ?_
        have := mem_takeWhile_state (c := s.state) hs.of_cons
          (fun y hy => List.rel_of_sorted_cons hs y hy) x hx' (hxk.trans hk.symm)
        exact this
    · rw [List.find?_cons_of_neg _ (by simpa using hk)]
      rcases List.mem_cons.1 hx with rfl | hx'
      · exact absurd hxk hk
      · have hsplit := List.takeWhile_append_dropWhile
          (fun t => t.state == s.state) rest
        have hx2 : x ∈ rest.takeWhile (fun t => t.state == s.state) ∨
            x ∈ rest.dropWhile (fun t => t.state == s.state) := by
          rw [← List.mem_append, hsplit]; exact hx'
        rcases hx2 with hx2 | hx2
        · exfalso
          have : x.state = s.state := by simpa using List.mem_takeWhile_imp hx2
          exact hk (this ▸ hxk)
        · exact mem_dictGet_of_mem (rest.dropWhile (fun t => t.state == s.state))
            (hs.of_cons.sublist (List.dropWhile_sublist _)) k x hx2 hxk
termination_by m => m.length
decreasing_by
  simp only [List.length_cons]
  exact Nat.lt_succ_of_le (List.dropWhile_sublist _).length_le

theorem mem_dictGet_statuses_get {required_statuses : List String} {raw : List Status}
    {k : String} {x : AStatus} :
    x ∈ dictGet (statuses_get required_statuses raw) k ↔
      x ∈ statuses_dedup required_statuses raw ∧ x.state = k := by
  constructor
  · intro h
    have h' := mem_dictGet_runsByState _ _ _ h
    exact ⟨(List.mem_insertionSort stateLe).1 h'.1, h'.2⟩
  · rintro ⟨h1, h2⟩
    exact mem_dictGet_of_mem _ (List.sorted_insertionSort stateLe _) k x
      ((List.mem_insertionSort stateLe).2 h1) h2

/-- C1 -- Idempotent reconciliation: for every raw report sequence and every
required-context set, the deduplication step of `statuses_get` keeps exactly
one status per distinct context of the input — for each context `c` the
surviving entries are exactly `bestFor c`, the report with the maximal
`updated_at` among those sharing context `c`, later-seen reports winning
ties (`bestFor` is written from the spec's description); a context with no
input report yields no output entry. -/
theorem reconcile_one_per_context (required_statuses : List String) (raw : List Status)
    (c : String) :
    (statuses_dedup required_statuses raw).filter (fun s => s.context == c) =
      (bestFor c (raw.map (addRequired required_statuses))).toList
    ∧ (bestFor c (raw.map (addRequired required_statuses)) = none ↔
        ∀ t ∈ raw, t.context ≠ c) := by
  constructor
  · exact statuses_dedup_filter required_statuses raw c
  · rw [bestFor_eq_none c _]
    constructor
    · intro h t ht
      exact h (addRequired required_statuses t) (List.mem_map_of_mem _ ht)
    · intro h y hy
      rcases List.mem_map.1 hy with ⟨t, ht, rfl⟩
      exact h t ht

/-- C6 -- Required-flag correctness: every status surviving reconciliation
carries `required = true` exactly when its context is a member of the
branch-protection required-context set. -/
theorem required_flag_correct (required_statuses : List String) (raw : List Status)
    (s : AStatus) (h : s ∈ statuses_dedup required_statuses raw) :
    s.required = true ↔ s.context ∈ required_statuses := by
  rcases List.mem_map.1 (mem_statuses_dedup h) with ⟨t, _, rfl⟩
  simp [addRequired]

theorem required_flag_correct_witness :
    ((⟨"ci", "success", "t1", none, none, true⟩ : AStatus).required = true ↔
      "ci" ∈ ["ci"]) :=
  required_flag_correct ["ci"] [⟨"ci", "success", "t1", none, none⟩]
    ⟨"ci", "success", "t1", none, none, true⟩ (by decide)

/-- C7 -- Verdict partition completeness: a reconciled check with state
`success` is in neither the failing nor the pending part of the verdict; one
with state `failure` or `error` is in the failing part; one with state
`pending` is in the pending part; the two parts are disjoint; and an empty
raw report sequence yields an empty verdict. -/
theorem verdict_partition (required_statuses : List String) (raw : List Status)
    (s : AStatus) :
    (s ∈ statuses_dedup required_statuses raw → s.state = "success" →
      s ∉ failingChecks (statuses_get required_statuses raw) ∧
      s ∉ pendingChecks (statuses_get required_statuses raw))
    ∧ (s ∈ statuses_dedup required_statuses raw →
        s.state = "failure" ∨ s.state = "error" →
        s ∈ failingChecks (statuses_get required_statuses raw))
    ∧ (s ∈ statuses_dedup required_statuses raw → s.state = "pending" →
        s ∈ pendingChecks (statuses_get required_statuses raw))
    ∧ (s ∈ failingChecks (statuses_get required_statuses raw) →
        s ∉ pendingChecks (statuses_get required_statuses raw))
    ∧ failingChecks (statuses_get required_statuses []) = []
    ∧ pendingChecks (statuses_get required_statuses []) = [] := by
  refine ⟨?_, ?_, ?_, ?_, ?_, ?_⟩
  · intro _ hsuc
    constructor
    · intro hf
      rcases List.mem_append.1 hf with hf | hf
      · have h2 := (mem_dictGet_statuses_get.1 hf).2
        rw [hsuc] at h2
        exact absurd h2 (by decide)
      · have h2 := (mem_dictGet_statuses_get.1 hf).2
        rw [hsuc] at h2
        exact absurd h2 (by decide)
    · intro hp
      have h2 := (mem_dictGet_statuses_get.1 hp).2
      rw [hsuc] at h2
      exact absurd h2 (by decide)
  · intro hmem hst
    rcases hst with hf | he
    · exact List.mem_append.2 (Or.inr (mem_dictGet_statuses_get.2 ⟨hmem, hf⟩))
    · exact List.mem_append.2 (Or.inl (mem_dictGet_statuses_get.2 ⟨hmem, he⟩))
  · intro hmem hp
    exact mem_dictGet_statuses_get.2 ⟨hmem, hp⟩
  · intro hf hp
    have h2 := (mem_dictGet_statuses_get.1 hp).2
    rcases List.mem_append.1 hf with hf' | hf'
    · have h1 := (mem_dictGet_statuses_get.1 hf').2
      rw [h2] at h1
      exact absurd h1 (by decide)
    · have h1 := (mem_dictGet_statuses_get.1 hf').2
      rw [h2] at h1
      exact absurd h1 (by decide)
  · simp [failingChecks, statuses_get, statuses_dedup, lastOfRuns,
      List.insertionSort, runsByState, dictGet, List.find?]
  · simp [pendingChecks, statuses_get, statuses_dedup, lastOfRuns,
      List.insertionSort, runsByState, dictGet, List.find?]

theorem verdict_partition_witness :
    (⟨"ci", "failure", "t1", none, none, false⟩ : AStatus) ∈
      failingChecks (statuses_get [] [⟨"ci", "failure", "t1", none, none⟩]) :=
  (verdict_partition [] [⟨"ci", "failure", "t1", none, none⟩]
      ⟨"ci", "failure", "t1", none, none, false⟩).2.1 (by decide) (Or.inl rfl)

/-- C5 -- Commit-title fallback: with no override the title is
`Merge <branch> [ok:...]` where the bracket uses at most the first two
approvers: zero approvers give `[ok:mergebot]`, one approver `a` gives
`[ok:a+mergebot]`, and two or more approvers give `[ok:a+b]`. -/
theorem commit_title_fallback (branch a b : String) (rest : List String) :
    commit_title none branch [] = "Merge " ++ branch ++ " [ok:mergebot]"
    ∧ commit_title none branch [a] = "Merge " ++ branch ++ " [ok:" ++ a ++ "+mergebot]"
    ∧ commit_title none branch (a :: b :: rest) =
        "Merge " ++ branch ++ " [ok:" ++ a ++ "+" ++ b ++ "]" := by
  refine ⟨?_, ?_, ?_⟩ <;>
    simp [commit_title, defaultTitle, joinPlus, String.append_assoc]

/-- C10 -- An empty-string `--commit-title` override is falsy in Python, so
`args.commit_title or default` falls back to the default title construction. -/
theorem commit_title_empty_override (branch : String) (approvers : List String) :
    commit_title (some "") branch approvers = defaultTitle branch approvers := by
  simp [commit_title]

/-- C8 -- Closed PR always aborts: when the fetched PR has lifecycle state
`closed`, the loop body breaks out (through the author abort of line 160 or
the closed abort of line 164) before the statuses are even fetched, so the
decision is an abort whatever the checks or the merge response would be. -/
theorem closed_always_aborts (user : String) (any_author : Bool) (inp : CycleInput)
    (pr : PRData) (hpr : inp.prFetch = .ok pr)
    (hrv : ∃ rs, inp.reviewsFetch = .ok rs) (hclosed : pr.state = "closed") :
    step user any_author inp = .abortAuthor ∨
    step user any_author inp = .abortClosed := by
  rcases hrv with ⟨rs, hrv⟩
  simp only [step, hpr, hrv]
  by_cases hauth : pr.author ≠ user ∧ ¬any_author
  · rw [if_pos hauth]
    exact Or.inl rfl
  · rw [if_neg hauth, if_pos hclosed]
    exact Or.inr rfl

theorem closed_always_aborts_witness :
    step "bob" false ⟨.ok ⟨"bob", "b", "s", "closed", some true, "clean"⟩, .ok [],
        .ok ([], []), .ok (some true)⟩ = .abortAuthor ∨
    step "bob" false ⟨.ok ⟨"bob", "b", "s", "closed", some true, "clean"⟩, .ok [],
        .ok ([], []), .ok (some true)⟩ = .abortClosed :=
  closed_always_aborts "bob" false _ ⟨"bob", "b", "s", "closed", some true, "clean"⟩
    rfl ⟨[], rfl⟩ rfl

/-- C3 counterexample: a closed PR authored by `alice` while logged in as
`bob` under the author-match policy produces the authorization abort of
line 160, not the closed-PR abort of line 164. -/
theorem author_before_closed_cex :
    step "bob" false ⟨.ok ⟨"alice", "b", "s", "closed", some true, "clean"⟩, .ok [],
        .ok ([], []), .ok (some true)⟩ = .abortAuthor ∧
    step "bob" false ⟨.ok ⟨"alice", "b", "s", "closed", some true, "clean"⟩, .ok [],
        .ok ([], []), .ok (some true)⟩ ≠ .abortClosed := by
  exact ⟨by decide, by decide⟩

/-- C3 amended: the author-policy check (line 160) runs before the closed
check (line 164), so a closed PR whose author differs from the current user
while `--any-author` is unset aborts with the authorization explanation. -/
theorem author_before_closed (user : String) (inp : CycleInput) (pr : PRData)
    (hpr : inp.prFetch = .ok pr) (hrv : ∃ rs, inp.reviewsFetch = .ok rs)
    (hauthor : pr.author ≠ user) (_hclosed : pr.state = "closed") :
    step user false inp = .abortAuthor := by
  rcases hrv with ⟨rs, hrv⟩
  simp only [step, hpr, hrv]
  rw [if_pos ⟨hauthor, by simp⟩]

theorem author_before_closed_witness :
    step "bob" false ⟨.ok ⟨"carol", "b", "s", "closed", none, "dirty"⟩, .ok [],
        .error .transport, .ok none⟩ = .abortAuthor :=
  author_before_closed "bob" _ ⟨"carol", "b", "s", "closed", none, "dirty"⟩ rfl
    ⟨[], rfl⟩ (by decide) rfl

/-- C2 counterexample: with one failing check the failing part of the
verdict is non-empty, yet the same cycle merges: the merge condition of
line 177 never consults the reconciled checks. -/
theorem failing_blocks_merge_cex :
    failingChecks (statuses_get [] [⟨"ci", "failure", "t1", none, none⟩]) ≠ [] ∧
    step "u" false ⟨.ok ⟨"u", "b", "s", "open", some true, "clean"⟩, .ok [],
        .ok ([], [⟨"ci", "failure", "t1", none, none⟩]), .ok (some true)⟩ =
      .merged := by
  constructor
  · have hmem : (⟨"ci", "failure", "t1", none, none, false⟩ : AStatus) ∈
        failingChecks (statuses_get [] [⟨"ci", "failure", "t1", none, none⟩]) :=
      List.mem_append.2 (Or.inr (mem_dictGet_statuses_get.2 ⟨by decide, rfl⟩))
    exact List.ne_nil_of_mem hmem
  · decide

/-- C2 amended: a non-empty failing part does not block merging. The
failing checks are only reported (line 169); whenever the author and closed
checks pass, `mergeable` is truthy and `mergeable_state` is `has_hooks` or
`clean`, the loop invokes the merge in that same cycle, whatever the
fetched statuses were. -/
theorem failing_does_not_block (user : String) (any_author : Bool) (inp : CycleInput)
    (pr : PRData) (hpr : inp.prFetch = .ok pr)
    (hrv : ∃ rs, inp.reviewsFetch = .ok rs)
    (hst : ∃ d, inp.statusesFetch = .ok d)
    (hauth : ¬(pr.author ≠ user ∧ ¬any_author)) (hopen : pr.state ≠ "closed")
    (hm : truthy pr.mergeable = true)
    (hms : pr.mergeable_state = "has_hooks" ∨ pr.mergeable_state = "clean") :
    callsMerge (step user any_author inp) = true := by
  rcases hrv with ⟨rs, hrv⟩
  rcases hst with ⟨d, hst⟩
  simp only [step, hpr, hrv, hst]
  rw [if_neg hauth, if_neg hopen, if_pos ⟨by simp [hm], hms⟩]
  cases hmf : inp.mergeFetch with
  | error e => rfl
  | ok m =>
    dsimp only
    by_cases hm2 : m = some true
    · rw [if_pos hm2]; rfl
    · rw [if_neg hm2]; rfl

theorem failing_does_not_block_witness :
    callsMerge (step "u" false ⟨.ok ⟨"u", "b", "s", "open", some true, "has_hooks"⟩,
        .ok [], .ok ([], [⟨"ci", "error", "t0", none, none⟩]), .error .rateLimit⟩) =
      true :=
  failing_does_not_block "u" false _ ⟨"u", "b", "s", "open", some true, "has_hooks"⟩
    rfl ⟨[], rfl⟩ ⟨([], [⟨"ci", "error", "t0", none, none⟩]), rfl⟩ (by simp)
    (by decide) rfl (Or.inl rfl)

/-- C4 counterexample: a transport failure in the first cycle crashes the
whole run even though a further cycle input is available, while the same
healthy input alone would have kept polling; the loop never logs and
retries after a remote error. -/
theorem remote_error_retry_cex :
    runLoop "u" false
        [⟨.error .transport, .ok [], .ok ([], []), .ok none⟩,
          ⟨.ok ⟨"u", "b", "s", "open", none, "unknown"⟩, .ok [], .ok ([], []),
            .ok none⟩] = .crashed .transport ∧
    runLoop "u" false
        [⟨.ok ⟨"u", "b", "s", "open", none, "unknown"⟩, .ok [], .ok ([], []),
          .ok none⟩] = .exhausted := by
  exact ⟨by decide, by decide⟩

/-- C4 amended: remote-client failures are not handled anywhere: whichever
of the cycle's remote operations raises — the PR fetch, the reviews fetch,
the branch-protection/statuses fetch (reached once the author and closed
checks pass), or the merge call (reached once the merge condition holds) —
the exception propagates out of the `while` loop and the run terminates as
crashed; the remaining cycles are never attempted. -/
theorem remote_error_crashes (user : String) (any_author : Bool) (inp : CycleInput)
    (rest : List CycleInput) (e : RemoteError) (pr : PRData) :
    (inp.prFetch = .error e → step user any_author inp = .crashed e)
    ∧ (inp.prFetch = .ok pr → inp.reviewsFetch = .error e →
        step user any_author inp = .crashed e)
    ∧ (inp.prFetch = .ok pr → (∃ rs, inp.reviewsFetch = .ok rs) →
        ¬(pr.author ≠ user ∧ ¬any_author) → pr.state ≠ "closed" →
        inp.statusesFetch = .error e → step user any_author inp = .crashed e)
    ∧ (inp.prFetch = .ok pr → (∃ rs, inp.reviewsFetch = .ok rs) →
        ¬(pr.author ≠ user ∧ ¬any_author) → pr.state ≠ "closed" →
        (∃ d, inp.statusesFetch = .ok d) → truthy pr.mergeable = true →
        (pr.mergeable_state = "has_hooks" ∨ pr.mergeable_state = "clean") →
        inp.mergeFetch = .error e → step user any_author inp = .mergeCrashed e)
    ∧ (step user any_author inp = .crashed e →
        runLoop user any_author (inp :: rest) = .crashed e)
    ∧ (step user any_author inp = .mergeCrashed e →
        runLoop user any_author (inp :: rest) = .mergeCrashed e) := by
  refine ⟨?_, ?_, ?_, ?_, ?_, ?_⟩
  · intro h
    simp only [step, h]
  · intro h1 h2
    simp only [step, h1, h2]
  · intro h1 h2 h3 h4 h5
    rcases h2 with ⟨rs, h2⟩
    simp only [step, h1, h2]
    rw [if_neg h3, if_neg h4, h5]
  · intro h1 h2 h3 h4 h5 h6 h7 h8
    rcases h2 with ⟨rs, h2⟩
    rcases h5 with ⟨d, h5⟩
    simp only [step, h1, h2]
    rw [if_neg h3, if_neg h4, h5]
    dsimp only
    rw [if_pos ⟨by simp [h6], h7⟩, h8]
  · intro h
    simp [runLoop, h]
  · intro h
    simp [runLoop, h]

theorem remote_error_crashes_witness :
    step "u" false ⟨.ok ⟨"u", "b", "s", "open", some true, "clean"⟩, .ok [],
        .error .notFound, .ok (some true)⟩ = .crashed .notFound ∧
    runLoop "u" false [⟨.ok ⟨"u", "b", "s", "open", some true, "clean"⟩, .ok [],
        .error .notFound, .ok (some true)⟩] = .crashed .notFound := by
  have h := remote_error_crashes "u" false
    ⟨.ok ⟨"u", "b", "s", "open", some true, "clean"⟩, .ok [], .error .notFound,
      .ok (some true)⟩ [] .notFound ⟨"u", "b", "s", "open", some true, "clean"⟩
  have hstep := h.2.2.1 rfl ⟨[], rfl⟩ (by simp) (by decide) rfl
  exact ⟨hstep, h.2.2.2.2.1 hstep⟩

/-- C9 -- Merge at most once and terminal afterwards: a run invokes the
merge endpoint at most once; once a cycle reaches the merge call its
outcome no longer depends on the remaining trace (the loop never runs
another cycle), with a merged response giving `done` and a non-merged
response giving the aborted outcome. -/
theorem merge_attempted_once (user : String) (any_author : Bool) :
    (∀ trace : List CycleInput, mergeCalls user any_author trace ≤ 1)
    ∧ (∀ (inp : CycleInput) (rest : List CycleInput),
        callsMerge (step user any_author inp) = true →
        runLoop user any_author (inp :: rest) = runLoop user any_author [inp]
        ∧ (step user any_author inp = .merged →
            runLoop user any_author (inp :: rest) = .done)
        ∧ (step user any_author inp = .mergeFailed →
            runLoop user any_author (inp :: rest) = .abortedMergeFailed)) := by
  constructor
  · intro trace
    induction trace with
    | nil => simp [mergeCalls]
    | cons inp rest ih =>
      cases h : step user any_author inp <;>
        simp [mergeCalls, h, callsMerge, ih]
  · intro inp rest hcm
    cases h : step user any_author inp <;> simp [callsMerge, h] at hcm ⊢ <;>
      simp [runLoop, h]

theorem merge_attempted_once_witness :
    runLoop "u" true
        [⟨.ok ⟨"a", "b", "s", "open", some true, "clean"⟩, .ok [], .ok ([], []),
          .ok (some true)⟩,
        ⟨.ok ⟨"a", "b", "s", "open", some true, "clean"⟩, .ok [], .ok ([], []),
          .ok (some true)⟩] = .done :=
  ((merge_attempted_once "u" true).2 _ _ (by decide)).2.1 (by decide)

end Mergebot
